import Mathlib

/-!
# Verification of the darkvidcreator timeline / chroma-key engine

Shallow embedding of `src/core/video_processor.py` (class `VideoProcessor`).
Machine floats are modelled as exact rationals (`ℚ`); Python exceptions are
modelled with `Except String`; the external filesystem and the media library's
per-item render successes are modelled as boolean oracles.
-/

namespace VideoProcessor

/-! ## Input validation and per-image duration allocation

Embeds `validate_inputs` (video_processor.py lines 133-148) and the duration
arithmetic of `create_video_from_images` (lines 150-198).  `fileExists` is the
oracle for `os.path.exists`; `renderOk` is the oracle for whether
`ImageClip(path)…` succeeds for a given image path (lines 176-186).  The
function returns the list of durations of the per-image clips that make up the
group's segment; the segment's total duration is their sum
(`concatenate_videoclips`, line 195). -/

def validateInputs (fileExists : String → Bool) (imagePaths : List String)
    (audioPath : String) : Except String Unit :=
  if ¬ fileExists audioPath then
    .error ("Audio file not found: " ++ audioPath)
  else
    match imagePaths.find? (fun p => ¬ fileExists p) with
    | some p => .error ("Image file not found: " ++ p)
    | none =>
      if imagePaths.length = 0 then .error "No images provided"
      else .ok ()

def secondsPerImage (audioDuration : ℚ) (totalImages : ℕ) : ℚ :=
  audioDuration / totalImages

def createVideoFromImages (fileExists renderOk : String → Bool)
    (imagePaths : List String) (audioPath : String) (audioDuration : ℚ) :
    Except String (List ℚ) := do
  let _ ← validateInputs fileExists imagePaths audioPath
  let spi := secondsPerImage audioDuration imagePaths.length
  let imageClips := imagePaths.filterMap (fun p => if renderOk p then some spi else none)
  if imageClips.isEmpty then
    .error "No valid images could be processed"
  else
    .ok imageClips

/-! ## Timeline conform rule

Embeds lines 348-351: after `set_audio`, if the video's duration exceeds the
audio's, the video duration is overwritten with the audio duration; the audio
duration is never touched.  The pair is (video duration, audio duration). -/

def conformDurations (videoDur audioDur : ℚ) : ℚ × ℚ :=
  if videoDur > audioDur then (audioDur, audioDur) else (videoDur, audioDur)

/-- **C9** — Invoking the video-creation step on a group with zero images fails
with the "No images provided" validation error raised by `validate_inputs`
(which `create_video_from_images` runs before computing
`seconds_per_image = audio_duration / total_images`), so no rendering work is
performed: the returned value is exactly that validation error. -/
theorem zero_images_fails_validation (fileExists renderOk : String → Bool)
    (audioPath : String) (audioDuration : ℚ)
    (hAudio : fileExists audioPath = true) :
    createVideoFromImages fileExists renderOk [] audioPath audioDuration =
      .error "No images provided" := by
  simp [createVideoFromImages, validateInputs, hAudio, List.find?, Bind.bind, Except.bind]

/-- Witness for `zero_images_fails_validation` at a concrete environment. -/
theorem zero_images_fails_validation_witness :
    (fun _ : String => true) "a.mp3" = true ∧
      createVideoFromImages (fun _ => true) (fun _ => true) [] "a.mp3" 60 =
        .error "No images provided" :=
  ⟨rfl, zero_images_fails_validation (fun _ => true) (fun _ => true) "a.mp3" 60 rfl⟩

/-- **C1** — For a group of `n ≥ 1` images, all of which render, and reference
audio duration `d > 0`, `create_video_from_images` assigns every image the
duration `d / n` and the assembled segment's total duration (the sum of the
per-image clip durations handed to `concatenate_videoclips`) is exactly `d`.
The computation uses only the group's own image list and the reference audio
duration, so it is independent of how many other groups exist. -/
theorem segment_duration_eq_audio_duration (fileExists renderOk : String → Bool)
    (imagePaths : List String) (audioPath : String) (d : ℚ)
    (hn : 1 ≤ imagePaths.length) (hd : 0 < d)
    (hAudio : fileExists audioPath = true)
    (hImgs : ∀ p ∈ imagePaths, fileExists p = true)
    (hRender : ∀ p ∈ imagePaths, renderOk p = true) :
    createVideoFromImages fileExists renderOk imagePaths audioPath d =
        .ok (List.replicate imagePaths.length (d / imagePaths.length)) ∧
      (List.replicate imagePaths.length (d / imagePaths.length)).sum = d := by
  have hfind : imagePaths.find? (fun p => ¬ fileExists p) = none := by
    rw [List.find?_eq_none]
    intro p hp
    simp [hImgs p hp]
  have hfm : ∀ (l : List String), (∀ p ∈ l, renderOk p = true) → ∀ c : ℚ,
      l.filterMap (fun p => if renderOk p then some c else none) =
        List.replicate l.length c := by
    intro l hl c
    induction l with
    | nil => rfl
    | cons a t ih =>
      rw [List.filterMap_cons]
      simp only [hl a (List.mem_cons_self a t), if_true]
      rw [ih (fun p hp => hl p (List.mem_cons_of_mem a hp))]
      rfl
  have hne : imagePaths.length ≠ 0 := by omega
  have hnq : (imagePaths.length : ℚ) ≠ 0 := by exact_mod_cast hne
  have hsum : (List.replicate imagePaths.length (d / imagePaths.length)).sum = d := by
    rw [List.sum_replicate, nsmul_eq_mul, mul_div_cancel₀ d hnq]
  refine ⟨?_, hsum⟩
  unfold createVideoFromImages validateInputs
  rw [hfind]
  simp only [hAudio, not_true_eq_false, if_false, if_neg hne]
  rw [secondsPerImage, hfm imagePaths hRender]
  have hemp : (List.replicate imagePaths.length
      (d / (imagePaths.length : ℚ))).isEmpty = false := by
    cases h : imagePaths.length with
    | zero => omega
    | succ k => rfl
  simp [Bind.bind, Except.bind, hemp]

/-- Witness for `segment_duration_eq_audio_duration`: one image, 30 s of audio. -/
theorem segment_duration_eq_audio_duration_witness :
    createVideoFromImages (fun _ => true) (fun _ => true) ["A1.png"] "a.mp3" 30 =
        .ok (List.replicate 1 ((30 : ℚ) / 1)) ∧
      (List.replicate 1 ((30 : ℚ) / 1)).sum = 30 := by
  have h := segment_duration_eq_audio_duration (fun _ => true) (fun _ => true)
    ["A1.png"] "a.mp3" 30 (by decide) (by norm_num) rfl
    (fun p _ => rfl) (fun p _ => rfl)
  simpa using h

/-! ## Audio track synthesis (lines 336-345)

The loop `for i in range(num_groups)` appends the full reference audio clip
and, whenever `i < num_groups - 1`, the span
`audio_clip.subclip(0, green_screen_duration).volumex(0)`.  An `AudioSeg`
records how each span of the synthesized track was constructed:
`sourceCopy` is a full copy of the reference audio, `subclipVolumex t0 t1 v`
is `audio_clip.subclip(t0, t1).volumex(v)`, and `silenceSpan dur` is the
literal zero-amplitude silence clip that the spec's words describe (it is
never produced by the code; it exists so that the spec's requirement can be
stated and compared). -/

inductive AudioSeg where
  | sourceCopy : AudioSeg
  | subclipVolumex (tStart tEnd vol : ℚ) : AudioSeg
  | silenceSpan (dur : ℚ) : AudioSeg
deriving DecidableEq

def isLiteralSilence : AudioSeg → Bool
  | .silenceSpan _ => true
  | _ => false

def buildAudioSegments (numGroups : ℕ) (sepDur : ℚ) : List AudioSeg :=
  (List.range numGroups).flatMap fun i =>
    if i < numGroups - 1 then
      [AudioSeg.sourceCopy, AudioSeg.subclipVolumex 0 sepDur 0]
    else
      [AudioSeg.sourceCopy]

/-- The amended description of the synthesized track: `n` full copies of the
reference audio, and between each two consecutive copies one span that is the
first `sepDur` seconds of the source with volume factor `0` applied — muted
source audio, not a literal silence clip. -/
def amendedAudioTrack : ℕ → ℚ → List AudioSeg
  | 0, _ => []
  | 1, _ => [AudioSeg.sourceCopy]
  | n + 2, sepDur =>
      AudioSeg.sourceCopy :: AudioSeg.subclipVolumex 0 sepDur 0 ::
        amendedAudioTrack (n + 1) sepDur

/-- **C6** — After the final timeline and audio track are built, the video
duration is clamped to the audio duration when it exceeds it and is left alone
otherwise, while the audio duration is never modified: the conform step maps
`(videoDur, audioDur)` to `(min videoDur audioDur, audioDur)`. -/
theorem conform_clamps_video_only (videoDur audioDur : ℚ) :
    conformDurations videoDur audioDur = (min videoDur audioDur, audioDur) := by
  unfold conformDurations
  split
  · next h => rw [min_eq_right (le_of_lt h)]
  · next h => rw [min_eq_left (le_of_not_lt h)]

theorem buildAudioSegments_succ_succ (k : ℕ) (sep : ℚ) :
    buildAudioSegments (k + 2) sep =
      AudioSeg.sourceCopy :: AudioSeg.subclipVolumex 0 sep 0 ::
        buildAudioSegments (k + 1) sep := by
  unfold buildAudioSegments
  rw [List.range_succ_eq_map]
  rw [List.flatMap_cons]
  have h0 : (if 0 < k + 2 - 1 then
      [AudioSeg.sourceCopy, AudioSeg.subclipVolumex 0 sep 0]
    else [AudioSeg.sourceCopy]) =
      [AudioSeg.sourceCopy, AudioSeg.subclipVolumex 0 sep 0] := by
    rw [if_pos]
    omega
  rw [h0]
  have h1 : (List.map Nat.succ (List.range (k + 1))).flatMap
      (fun i => if i < k + 2 - 1 then
        [AudioSeg.sourceCopy, AudioSeg.subclipVolumex 0 sep 0]
      else [AudioSeg.sourceCopy]) =
      (List.range (k + 1)).flatMap
      (fun i => if i < k + 1 - 1 then
        [AudioSeg.sourceCopy, AudioSeg.subclipVolumex 0 sep 0]
      else [AudioSeg.sourceCopy]) := by
    rw [List.flatMap_map]
    apply List.flatMap_congr
    intro i _
    exact if_congr (by omega) rfl rfl
  rw [h1]
  rfl

/-- **C2 (counterexample)** — With 3 groups and separator duration 5.0 s, the
span the code inserts between the first two full copies of the reference audio
is `audio_clip.subclip(0, 5).volumex(0)` — a copy of the source muted by a
zero volume factor — and not a literal silence span, contradicting the claim
that every inserted span is literal silence by construction. -/
theorem audio_separator_is_muted_subclip_counterexample :
    (buildAudioSegments 3 5)[1]? = some (AudioSeg.subclipVolumex 0 5 0) ∧
      isLiteralSilence (AudioSeg.subclipVolumex 0 5 0) = false := by
  decide

/-- **C2 (amended)** — The synthesized audio track for `N` groups consists of
`N` full copies of the reference audio; between each two consecutive copies the
inserted span is the first `sepDur` seconds of the source audio with volume
factor 0 applied (zero amplitude in effect, but produced by muting a copy of
the source, not built as literal silence). -/
theorem buildAudioSegments_eq_amended (n : ℕ) (sep : ℚ) :
    buildAudioSegments n sep = amendedAudioTrack n sep := by
  induction n with
  | zero => rfl
  | succ m ih =>
    cases m with
    | zero => rfl
    | succ k =>
      rw [buildAudioSegments_succ_succ]
      rw [amendedAudioTrack]
      rw [ih]

/-! ## Timeline assembly (lines 260-312)

`sorted_groups = sorted(image_groups.items())` sorts the group map's entries;
the keys are pairwise distinct (they are dictionary keys), so Python's tuple
comparison only ever consults the first components, which the comparison
relation below reflects.  A group is skipped when its image list is empty
(line 266) or when rendering its segment fails or yields a non-positive
duration (lines 276-292); `renderOk` is the oracle for the latter.  The final
clip list appends each surviving segment and, after every segment except the
last, one green-screen separator clip (lines 303-311). -/

inductive TClip where
  | seg (groupKey : String) : TClip
  | sep : TClip
deriving DecidableEq

/-- Python's string comparison: code-point lexicographic order on the
character sequences.  (Lean's `Char <` compares code points.) -/
def charListLe : List Char → List Char → Bool
  | [], _ => true
  | _ :: _, [] => false
  | a :: as, b :: bs =>
    if a < b then true else if b < a then false else charListLe as bs

def keyLe (a b : String) : Bool := charListLe a.data b.data

theorem charListLe_total : ∀ a b, charListLe a b = true ∨ charListLe b a = true
  | [], _ => Or.inl rfl
  | _ :: _, [] => Or.inr rfl
  | a :: as, b :: bs => by
    by_cases h1 : a < b
    · left; simp [charListLe, h1]
    · by_cases h2 : b < a
      · right; simp [charListLe, h2, h1]
      · cases charListLe_total as bs with
        | inl h => left; simp [charListLe, h1, h2, h]
        | inr h => right; simp [charListLe, h1, h2, h]

theorem charListLe_trans :
    ∀ a b c, charListLe a b = true → charListLe b c = true →
      charListLe a c = true
  | [], _, _, _, _ => rfl
  | _ :: _, [], _, h1, _ => by simp [charListLe] at h1
  | _ :: _, _ :: _, [], _, h2 => by simp [charListLe] at h2
  | a :: as, b :: bs, c :: cs, h1, h2 => by
    simp only [charListLe] at h1 h2 ⊢
    by_cases hab : a < b
    · by_cases hbc : b < c
      · simp [lt_trans hab hbc]
      · by_cases hcb : c < b
        · simp [hbc, hcb] at h2
        · have : b = c := le_antisymm (le_of_not_lt hcb) (le_of_not_lt hbc)
          simp [this ▸ hab]
    · by_cases hba : b < a
      · simp [hab, hba] at h1
      · have hab' : a = b := le_antisymm (le_of_not_lt hba) (le_of_not_lt hab)
        subst hab'
        by_cases hbc : a < c
        · simp [hbc]
        · by_cases hcb : c < a
          · simp [hbc, hcb] at h2
          · have h1' : charListLe as bs = true := by
              simpa [lt_irrefl] using h1
            have h2' : charListLe bs cs = true := by
              simpa [hbc, hcb] using h2
            simpa [hbc, hcb] using charListLe_trans as bs cs h1' h2'

instance : IsTrans (String × List String) (fun a b => keyLe a.1 b.1 = true) :=
  ⟨fun _ _ _ => charListLe_trans _ _ _⟩

instance : IsTotal (String × List String) (fun a b => keyLe a.1 b.1 = true) :=
  ⟨fun a b => charListLe_total a.1.data b.1.data⟩

def sortGroupsByKey (groups : List (String × List String)) :
    List (String × List String) :=
  groups.insertionSort (fun a b => keyLe a.1 b.1 = true)

def createMultiVideoSegmentKeys (renderOk : String → Bool)
    (groups : List (String × List String)) : List String :=
  (sortGroupsByKey groups).filterMap fun g =>
    if g.2 ≠ [] ∧ renderOk g.1 = true then some g.1 else none

def buildFinalClips : List String → List TClip
  | [] => []
  | [k] => [TClip.seg k]
  | k :: k2 :: rest => TClip.seg k :: TClip.sep :: buildFinalClips (k2 :: rest)

theorem keys_sorted (renderOk : String → Bool)
    (groups : List (String × List String)) :
    List.Sorted (fun a b => keyLe a b = true)
      (createMultiVideoSegmentKeys renderOk groups) := by
  unfold createMultiVideoSegmentKeys
  have hfm : ∀ l : List (String × List String),
      (l.filterMap fun g => if g.2 ≠ [] ∧ renderOk g.1 = true then some g.1 else none) =
        (l.filter fun g => decide (g.2 ≠ [] ∧ renderOk g.1 = true)).map Prod.fst := by
    intro l
    induction l with
    | nil => rfl
    | cons a t ih =>
      by_cases h : a.2 ≠ [] ∧ renderOk a.1 = true
      · simp [List.filterMap_cons, List.filter_cons, h, ih]
      · simp [List.filterMap_cons, List.filter_cons, h, ih]
  rw [hfm]
  have hsorted : List.Sorted (fun a b : String × List String => keyLe a.1 b.1 = true)
      (sortGroupsByKey groups) := by
    unfold sortGroupsByKey
    apply List.sorted_insertionSort
  have hfilter : List.Sorted (fun a b : String × List String => keyLe a.1 b.1 = true)
      ((sortGroupsByKey groups).filter fun g =>
        decide (g.2 ≠ [] ∧ renderOk g.1 = true)) :=
    List.Pairwise.filter _ hsorted
  exact List.pairwise_map.mpr hfilter

theorem buildFinalClips_length (l : List String) (h : l ≠ []) :
    (buildFinalClips l).length = 2 * l.length - 1 := by
  induction l with
  | nil => simp at h
  | cons k t ih =>
    cases t with
    | nil => rfl
    | cons k2 rest =>
      show (TClip.seg k :: TClip.sep :: buildFinalClips (k2 :: rest)).length = _
      have := ih (by simp)
      simp only [List.length_cons] at this ⊢
      omega

theorem buildFinalClips_sep_iff (l : List String) :
    ∀ i (h : i < (buildFinalClips l).length),
      ((buildFinalClips l).get ⟨i, h⟩ = TClip.sep ↔ i % 2 = 1) := by
  induction l with
  | nil => intro i h; simp [buildFinalClips] at h
  | cons k t ih =>
    cases t with
    | nil =>
      intro i h
      simp only [buildFinalClips, List.length_cons, List.length_nil] at h
      interval_cases i
      simp [buildFinalClips]
    | cons k2 rest =>
      intro i h
      match i with
      | 0 => simp [buildFinalClips]
      | 1 => simp [buildFinalClips]
      | Nat.succ (Nat.succ j) =>
        have h' : j + 2 <
            (TClip.seg k :: TClip.sep :: buildFinalClips (k2 :: rest)).length := h
        have hj : j < (buildFinalClips (k2 :: rest)).length := by
          simp only [List.length_cons] at h'
          omega
        have hget : (buildFinalClips (k :: k2 :: rest)).get ⟨j + 2, h⟩ =
            (buildFinalClips (k2 :: rest)).get ⟨j, hj⟩ := rfl
        rw [hget, ih j hj]
        omega

theorem buildFinalClips_sep_count (l : List String) (h : l ≠ []) :
    ((buildFinalClips l).countP fun c => decide (c = TClip.sep)) = l.length - 1 := by
  induction l with
  | nil => simp at h
  | cons k t ih =>
    cases t with
    | nil => rfl
    | cons k2 rest =>
      show ((TClip.seg k :: TClip.sep :: buildFinalClips (k2 :: rest)).countP
        fun c => decide (c = TClip.sep)) = _
      rw [List.countP_cons, List.countP_cons]
      have := ih (by simp)
      simp only [List.length_cons] at this ⊢
      rw [this]
      simp

/-- **C5** — For a timeline assembled from `N ≥ 1` successfully rendered
segments: the segments appear in ascending lexicographic key order (a
subsequence of the groups sorted by key), the final clip list has `2N - 1`
entries of which exactly `N - 1` are separators, and a clip is a separator
exactly at the odd positions — i.e. each separator sits immediately after a
segment that is not the last, and no separator precedes the first segment
(position 0 is even) or follows the last segment (position `2N - 2` is even). -/
theorem timeline_separator_placement (renderOk : String → Bool)
    (groups : List (String × List String))
    (hN : 1 ≤ (createMultiVideoSegmentKeys renderOk groups).length) :
    List.Sorted (fun a b => keyLe a b = true)
      (createMultiVideoSegmentKeys renderOk groups) ∧
    (buildFinalClips (createMultiVideoSegmentKeys renderOk groups)).length =
      2 * (createMultiVideoSegmentKeys renderOk groups).length - 1 ∧
    ((buildFinalClips (createMultiVideoSegmentKeys renderOk groups)).countP
        fun c => decide (c = TClip.sep)) =
      (createMultiVideoSegmentKeys renderOk groups).length - 1 ∧
    ∀ i (h : i < (buildFinalClips (createMultiVideoSegmentKeys renderOk groups)).length),
      ((buildFinalClips (createMultiVideoSegmentKeys renderOk groups)).get ⟨i, h⟩ =
        TClip.sep ↔ i % 2 = 1) := by
  have hne : createMultiVideoSegmentKeys renderOk groups ≠ [] := by
    intro h
    rw [h] at hN
    simp at hN
  exact ⟨keys_sorted renderOk groups,
    buildFinalClips_length _ hne,
    buildFinalClips_sep_count _ hne,
    buildFinalClips_sep_iff _⟩

/-- Witness for `timeline_separator_placement`: three groups given out of
order, all rendering successfully. -/
theorem timeline_separator_placement_witness :
    1 ≤ (createMultiVideoSegmentKeys (fun _ => true)
      [("B", ["b1"]), ("A", ["a1"]), ("C", ["c1"])]).length ∧
    (List.Sorted (fun a b => keyLe a b = true)
      (createMultiVideoSegmentKeys (fun _ => true)
        [("B", ["b1"]), ("A", ["a1"]), ("C", ["c1"])]) ∧
    (buildFinalClips (createMultiVideoSegmentKeys (fun _ => true)
      [("B", ["b1"]), ("A", ["a1"]), ("C", ["c1"])])).length =
      2 * (createMultiVideoSegmentKeys (fun _ => true)
        [("B", ["b1"]), ("A", ["a1"]), ("C", ["c1"])]).length - 1 ∧
    ((buildFinalClips (createMultiVideoSegmentKeys (fun _ => true)
      [("B", ["b1"]), ("A", ["a1"]), ("C", ["c1"])])).countP
        fun c => decide (c = TClip.sep)) =
      (createMultiVideoSegmentKeys (fun _ => true)
        [("B", ["b1"]), ("A", ["a1"]), ("C", ["c1"])]).length - 1 ∧
    ∀ i (h : i < (buildFinalClips (createMultiVideoSegmentKeys (fun _ => true)
      [("B", ["b1"]), ("A", ["a1"]), ("C", ["c1"])])).length),
      ((buildFinalClips (createMultiVideoSegmentKeys (fun _ => true)
        [("B", ["b1"]), ("A", ["a1"]), ("C", ["c1"])])).get ⟨i, h⟩ =
        TClip.sep ↔ i % 2 = 1)) :=
  ⟨by decide, timeline_separator_placement (fun _ => true)
    [("B", ["b1"]), ("A", ["a1"]), ("C", ["c1"])] (by decide)⟩

/-! ## Group-key derivation (`group_images_by_prefix`, lines 49-80)

For each path the code takes `os.path.basename(path)`; if the base name starts
with `"image_"` (and contains an underscore) it splits on `'_'` with maxsplit
2 and, when that yields at least 3 parts, matches `^([A-Za-z]+)` against the
third part; on a match the upper-cased run is the group key and the loop
continues.  In every other case — including a wrapped name whose original part
has no leading alphabetic run — control falls through to the fallback, which
matches `^([A-Za-z]+)` against the *full* base name and only assigns
`"DEFAULT"` when that fails too.  Python's string primitives are modelled as
recursive functions on the character list. -/

def basenameChars (path : List Char) : List Char :=
  (path.reverse.takeWhile (fun c => c ≠ '/')).reverse

def isEnglishAlpha (c : Char) : Bool :=
  ('A' ≤ c && c ≤ 'Z') || ('a' ≤ c && c ≤ 'z')

def leadingAlphaChars (s : List Char) : List Char :=
  s.takeWhile isEnglishAlpha

def upperChars (s : List Char) : List Char :=
  s.map Char.toUpper

def splitFirstUnderscore : List Char → Option (List Char × List Char)
  | [] => none
  | c :: rest =>
    if c = '_' then some ([], rest)
    else
      match splitFirstUnderscore rest with
      | none => none
      | some (a, b) => some (c :: a, b)

/-- Python's `s.split('_', 2)`. -/
def splitUnderscoreMax2 (s : List Char) : List (List Char) :=
  match splitFirstUnderscore s with
  | none => [s]
  | some (a, r1) =>
    match splitFirstUnderscore r1 with
    | none => [a, r1]
    | some (b, r2) => [a, b, r2]

def groupKeyChars (filename : List Char) : List Char :=
  let fallback :=
    let p := leadingAlphaChars filename
    if p = [] then ['D', 'E', 'F', 'A', 'U', 'L', 'T'] else upperChars p
  if "image_".data.isPrefixOf filename && filename.contains '_' then
    match splitUnderscoreMax2 filename with
    | _ :: _ :: originalName :: _ =>
      let p := leadingAlphaChars originalName
      if p = [] then fallback else upperChars p
    | _ => fallback
  else fallback

def groupKeyOfPath (path : String) : String :=
  String.mk (groupKeyChars (basenameChars path.data))

/-- **C4 (counterexample)** — The wrapped upload `image_000_1.png`, whose
original name `1.png` starts with a digit, is assigned the group key
`"IMAGE"` (the leading alphabetic run of the full wrapped name), not
`"DEFAULT"` as the claim states: when the original name has no leading
alphabetic run the code falls through to the fallback applied to the full
base name, which still starts with `image`. -/
theorem wrapped_digit_name_counterexample :
    groupKeyOfPath "image_000_1.png" = "IMAGE" ∧
      ("IMAGE" : String) ≠ "DEFAULT" := by
  constructor
  · decide
  · decide

/-- The amended derivation, following the claim's wording except on the
fallback: if the base name follows the upload-wrapper convention
`image_<index>_<originalname>` and `<originalname>` has a leading alphabetic
run, the key is that run upper-cased; otherwise the key is the leading
alphabetic run of the full base name upper-cased; `"DEFAULT"` is assigned
only when the full base name has no leading alphabetic run (so a wrapped file
whose original name starts with a digit gets `"IMAGE"`, never `"DEFAULT"`). -/
def amendedSpecGroupKeyChars (filename : List Char) : List Char :=
  let wrappedOriginal : Option (List Char) :=
    if "image_".data.isPrefixOf filename && filename.contains '_' then
      match splitUnderscoreMax2 filename with
      | _ :: _ :: originalName :: _ => some originalName
      | _ => none
    else none
  match wrappedOriginal with
  | some originalName =>
    if leadingAlphaChars originalName ≠ [] then
      upperChars (leadingAlphaChars originalName)
    else if leadingAlphaChars filename ≠ [] then
      upperChars (leadingAlphaChars filename)
    else ['D', 'E', 'F', 'A', 'U', 'L', 'T']
  | none =>
    if leadingAlphaChars filename ≠ [] then
      upperChars (leadingAlphaChars filename)
    else ['D', 'E', 'F', 'A', 'U', 'L', 'T']

theorem groupKeyChars_eq_amended (filename : List Char) :
    groupKeyChars filename = amendedSpecGroupKeyChars filename := by
  unfold groupKeyChars amendedSpecGroupKeyChars
  by_cases hw : ("image_".data.isPrefixOf filename && filename.contains '_') = true
  · rw [if_pos hw, if_pos hw]
    cases hsp : splitUnderscoreMax2 filename with
    | nil => simp
    | cons a t =>
      cases t with
      | nil => simp
      | cons b t2 =>
        cases t2 with
        | nil => simp
        | cons orig t3 =>
          by_cases hp : leadingAlphaChars orig = []
          · simp [hp]
          · simp [hp]
  · rw [if_neg hw, if_neg hw]
    simp

/-- **C4 (amended)** — For every image path, the group key the code derives
equals the amended derivation `amendedSpecGroupKeyChars` applied to the path's
base name: wrapper stripped and its original name's leading alphabetic run
upper-cased when that run exists, otherwise the leading alphabetic run of the
full base name upper-cased, and `"DEFAULT"` only when the base name has no
leading alphabetic run at all. -/
theorem group_key_amended (path : String) :
    groupKeyOfPath path =
      String.mk (amendedSpecGroupKeyChars (basenameChars path.data)) := by
  unfold groupKeyOfPath
  rw [groupKeyChars_eq_amended]

/-! ## Chroma-key detection (`detect_green_screen_segments`, lines 443-494)

The scan samples timestamps `np.arange(0, duration, 2.0)` (that is `2·k` for
`k < ⌈duration/2⌉`), while `total_samples = int(duration / 2.0) = ⌊duration/2⌋`
(line 458).  When a progress callback is supplied, each loop iteration first
computes `10 + (i / total_samples) * 70` (line 462) — in Python an integer
division that raises `ZeroDivisionError` when `total_samples == 0` — before
the `try` block that extracts the frame.  `frames t = none` models a frame
extraction that raises (caught at line 477 and skipped); `frames t = some g`
models a decoded frame classified green (`g = true`) or not.  The state is
`(green_segments, current_green_start)`; after the loop a still-open run is
closed at the video's total duration (lines 482-483). -/

def scanStep (st : List (ℚ × ℚ) × Option ℚ) (t : ℚ) (isGreen : Bool) :
    List (ℚ × ℚ) × Option ℚ :=
  match st.2, isGreen with
  | none, true => (st.1, some t)
  | some s, false => (st.1 ++ [(s, t)], none)
  | _, _ => st

def scanSamples (hasCallback : Bool) (totalSamples : ℕ)
    (frames : ℚ → Option Bool) :
    List ℚ → List (ℚ × ℚ) × Option ℚ → Except String (List (ℚ × ℚ) × Option ℚ)
  | [], st => .ok st
  | t :: rest, st =>
    if hasCallback = true ∧ totalSamples = 0 then
      .error "ZeroDivisionError: division by zero"
    else
      match frames t with
      | none => scanSamples hasCallback totalSamples frames rest st
      | some isGreen =>
          scanSamples hasCallback totalSamples frames rest (scanStep st t isGreen)

def sampleTimestamps (duration : ℚ) : List ℚ :=
  (List.range (Int.toNat ⌈duration / 2⌉)).map (fun (k : ℕ) => 2 * (k : ℚ))

def totalSamplesOf (duration : ℚ) : ℕ := Int.toNat ⌊duration / 2⌋

def detectGreenScreenSegments (hasCallback : Bool) (duration : ℚ)
    (frames : ℚ → Option Bool) : Except String (List (ℚ × ℚ)) := do
  let st ← scanSamples hasCallback (totalSamplesOf duration) frames
    (sampleTimestamps duration) ([], none)
  match st.2 with
  | some s => pure (st.1 ++ [(s, duration)])
  | none => pure st.1

/-- **C3 (counterexample)** — A 4-second video in which every frame extraction
fails: zero samples are processed, yet the detector returns the successful
empty interval list instead of reporting an error.  (The code has no check on
the number of successfully processed samples.) -/
theorem detect_zero_processed_counterexample :
    detectGreenScreenSegments false 4 (fun _ => none) = .ok [] := by
  have hts : sampleTimestamps 4 = [0, 2] := by
    norm_num [sampleTimestamps]
    rw [show Int.toNat 2 = 2 from rfl]
    norm_num [List.range_succ]
  simp [detectGreenScreenSegments, hts, scanSamples, Bind.bind, Except.bind,
    Pure.pure, Except.pure]

/-- **C3 (amended)** — When every per-timestamp frame extraction fails (zero
samples processed), the detector (invoked without a progress callback) returns
the empty interval list as a successful result; no error is reported to the
caller. -/
theorem detect_all_samples_failed_returns_ok_empty (duration : ℚ)
    (frames : ℚ → Option Bool) (hfail : ∀ t, frames t = none) :
    detectGreenScreenSegments false duration frames = .ok [] := by
  have hloop : ∀ ts : List ℚ,
      scanSamples false (totalSamplesOf duration) frames ts ([], none) =
        .ok ([], none) := by
    intro ts
    induction ts with
    | nil => rfl
    | cons t rest ih => simp [scanSamples, hfail t, ih]
  simp [detectGreenScreenSegments, hloop, Bind.bind, Except.bind, Pure.pure,
    Except.pure]

/-- Witness for `detect_all_samples_failed_returns_ok_empty`. -/
theorem detect_all_samples_failed_returns_ok_empty_witness :
    detectGreenScreenSegments false 10 (fun _ => none) = .ok [] :=
  detect_all_samples_failed_returns_ok_empty 10 (fun _ => none) (fun _ => rfl)

/-- **C10** — For a video of duration strictly between 0 and the 2-second
sampling interval, invoking the detector with a progress callback raises
`ZeroDivisionError` at the first sample: `int(duration / 2.0) = 0` but
`np.arange(0, duration, 2.0)` still yields the timestamp 0, and the progress
computation `10 + (i / total_samples) * 70` divides by zero before the frame
is ever extracted — even though every frame decodes successfully. -/
theorem detect_short_video_callback_div_zero (duration : ℚ)
    (frames : ℚ → Option Bool) (h0 : 0 < duration) (h2 : duration < 2)
    (hdecode : ∀ t, (frames t).isSome = true) :
    detectGreenScreenSegments true duration frames =
      .error "ZeroDivisionError: division by zero" := by
  have hceil : ⌈duration / 2⌉ = 1 := by
    rw [Int.ceil_eq_iff]
    constructor
    · push_cast
      linarith
    · push_cast
      linarith
  have hfloor : ⌊duration / 2⌋ = 0 := by
    rw [Int.floor_eq_zero_iff, Set.mem_Ico]
    constructor
    · linarith
    · linarith
  have hts : sampleTimestamps duration = [0] := by
    unfold sampleTimestamps
    rw [hceil]
    norm_num [List.range_succ]
  have htot : totalSamplesOf duration = 0 := by
    unfold totalSamplesOf
    rw [hfloor]
    rfl
  simp [detectGreenScreenSegments, hts, htot, scanSamples, Bind.bind,
    Except.bind]

/-- Witness for `detect_short_video_callback_div_zero`: a 1-second video. -/
theorem detect_short_video_callback_div_zero_witness :
    (0 : ℚ) < 1 ∧ (1 : ℚ) < 2 ∧
      detectGreenScreenSegments true 1 (fun _ => some true) =
        .error "ZeroDivisionError: division by zero" :=
  ⟨by norm_num, by norm_num,
    detect_short_video_callback_div_zero 1 (fun _ => some true)
      (by norm_num) (by norm_num) (fun _ => rfl)⟩

/-! Invariants of the single-pass interval tracker. -/

def ScanInv (st : List (ℚ × ℚ) × Option ℚ) (b : ℚ) : Prop :=
  (∀ p ∈ st.1, p.1 < p.2) ∧
  st.1.Pairwise (fun p q => p.2 ≤ q.1) ∧
  (∀ p ∈ st.1, p.2 ≤ b) ∧
  (∀ s, st.2 = some s → s ≤ b ∧ ∀ p ∈ st.1, p.2 ≤ s)

theorem ScanInv.mono {st : List (ℚ × ℚ) × Option ℚ} {b b' : ℚ}
    (h : ScanInv st b) (hb : b ≤ b') : ScanInv st b' := by
  obtain ⟨h1, h2, h3, h4⟩ := h
  refine ⟨h1, h2, fun p hp => le_trans (h3 p hp) hb, fun s hs => ?_⟩
  obtain ⟨ha, hb2⟩ := h4 s hs
  exact ⟨le_trans ha hb, hb2⟩

theorem scanStep_inv {st : List (ℚ × ℚ) × Option ℚ} {b t : ℚ} (g : Bool)
    (h : ScanInv st b) (hbt : b < t) : ScanInv (scanStep st t g) t := by
  obtain ⟨h1, h2, h3, h4⟩ := h
  unfold scanStep
  match hst : st.2, g with
  | none, true =>
    refine ⟨h1, h2, fun p hp => le_trans (h3 p hp) (le_of_lt hbt), ?_⟩
    intro s hs
    simp only [Option.some.injEq] at hs
    subst hs
    exact ⟨le_refl t, fun p hp => le_trans (h3 p hp) (le_of_lt hbt)⟩
  | some s, false =>
    have hsb : s ≤ b ∧ ∀ p ∈ st.1, p.2 ≤ s := h4 s hst
    refine ⟨?_, ?_, ?_, ?_⟩
    · intro p hp
      rcases List.mem_append.mp hp with h | h
      · exact h1 p h
      · simp at h
        subst h
        exact lt_of_le_of_lt hsb.1 hbt
    · rw [List.pairwise_append]
      refine ⟨h2, List.pairwise_singleton _ _, ?_⟩
      intro p hp q hq
      simp at hq
      subst hq
      exact hsb.2 p hp
    · intro p hp
      rcases List.mem_append.mp hp with h | h
      · exact le_trans (h3 p h) (le_of_lt hbt)
      · simp at h
        subst h
        exact le_refl t
    · intro s' hs'
      simp at hs'
  | none, false =>
    exact ScanInv.mono ⟨h1, h2, h3, h4⟩ (le_of_lt hbt)
  | some s, true =>
    exact ScanInv.mono ⟨h1, h2, h3, h4⟩ (le_of_lt hbt)

theorem scanSamples_inv (hasCallback : Bool) (totalSamples : ℕ)
    (frames : ℚ → Option Bool) :
    ∀ (ts : List ℚ) (st : List (ℚ × ℚ) × Option ℚ) (b : ℚ)
      (res : List (ℚ × ℚ) × Option ℚ),
      List.Chain (· < ·) b ts → ScanInv st b →
      scanSamples hasCallback totalSamples frames ts st = .ok res →
      ScanInv res (ts.getLastD b)
  | [], st, b, res, _, hinv, heq => by
    simp only [scanSamples] at heq
    cases heq
    exact hinv
  | t :: rest, st, b, res, hchain, hinv, heq => by
    rw [List.chain_cons] at hchain
    obtain ⟨hbt, hchain'⟩ := hchain
    simp only [scanSamples] at heq
    rw [List.getLastD_cons]
    split at heq
    · cases heq
    · cases hft : frames t with
      | none =>
        rw [hft] at heq
        exact scanSamples_inv hasCallback totalSamples frames rest st t res
          hchain' (hinv.mono (le_of_lt hbt)) heq
      | some g =>
        rw [hft] at heq
        exact scanSamples_inv hasCallback totalSamples frames rest
          (scanStep st t g) t res hchain' (scanStep_inv g hinv hbt) heq

theorem chain_lt_map_range (n : ℕ) :
    List.Chain (· < ·) (-1 : ℚ) ((List.range n).map fun (k : ℕ) => 2 * (k : ℚ)) := by
  rw [List.chain_iff_get]
  constructor
  · intro h
    rw [List.get_map, List.get_range]
    norm_num
  · intro i h
    rw [List.get_map, List.get_map, List.get_range, List.get_range]
    push_cast
    linarith

theorem sampleTimestamps_chain (d : ℚ) :
    List.Chain (· < ·) (-1 : ℚ) (sampleTimestamps d) := by
  unfold sampleTimestamps
  exact chain_lt_map_range _

theorem sampleTimestamps_lt (d : ℚ) : ∀ t ∈ sampleTimestamps d, t < d := by
  intro t ht
  unfold sampleTimestamps at ht
  simp only [List.mem_map, List.mem_range] at ht
  obtain ⟨k, hk, rfl⟩ := ht
  have hk' : (k : ℤ) < ⌈d / 2⌉ := by omega
  have h1 : (k : ℚ) + 1 ≤ (⌈d / 2⌉ : ℚ) := by
    have h1' : (k : ℤ) + 1 ≤ ⌈d / 2⌉ := hk'
    exact_mod_cast h1'
  have h2 : (⌈d / 2⌉ : ℚ) < d / 2 + 1 := Int.ceil_lt_add_one _
  linarith

theorem getLastD_eq_or_mem : ∀ (l : List ℚ) (d : ℚ),
    l.getLastD d = d ∨ l.getLastD d ∈ l
  | [], _ => Or.inl rfl
  | a :: t, d => by
    rw [List.getLastD_cons]
    cases getLastD_eq_or_mem t a with
    | inl h => right; rw [h]; exact List.mem_cons_self a t
    | inr h => right; exact List.mem_cons_of_mem a h

/-- **C8** — Every interval list `L` returned by the detector satisfies: each
interval has `start < end` with `end ≤ duration`, the intervals are pairwise
non-overlapping (`end ≤` the next `start`) and ordered strictly ascending by
start, and when a green run is still open after the last processed sample
(the scan's final state carries `some s`) the returned list closes it exactly
at the video's total duration, as its last interval `(s, duration)`. -/
theorem detect_intervals_invariants (hasCallback : Bool) (duration : ℚ)
    (frames : ℚ → Option Bool) (L : List (ℚ × ℚ))
    (h : detectGreenScreenSegments hasCallback duration frames = .ok L) :
    (∀ p ∈ L, p.1 < p.2 ∧ p.2 ≤ duration) ∧
    L.Pairwise (fun p q => p.2 ≤ q.1) ∧
    L.Pairwise (fun p q => p.1 < q.1) ∧
    (∀ st, scanSamples hasCallback (totalSamplesOf duration) frames
        (sampleTimestamps duration) ([], none) = .ok st →
      ∀ s, st.2 = some s → L = st.1 ++ [(s, duration)]) := by
  obtain ⟨st, hscan⟩ : ∃ st, scanSamples hasCallback (totalSamplesOf duration)
      frames (sampleTimestamps duration) ([], none) = .ok st := by
    unfold detectGreenScreenSegments at h
    cases hres : scanSamples hasCallback (totalSamplesOf duration) frames
        (sampleTimestamps duration) ([], none) with
    | error e =>
      rw [hres] at h
      simp [Bind.bind, Except.bind] at h
    | ok st => exact ⟨st, rfl⟩
  unfold detectGreenScreenSegments at h
  rw [hscan] at h
  simp only [Bind.bind, Except.bind] at h
  have hinv0 : ScanInv ([], none) (-1) := ⟨by simp, by simp, by simp, by simp⟩
  have hinv : ScanInv st ((sampleTimestamps duration).getLastD (-1)) :=
    scanSamples_inv hasCallback (totalSamplesOf duration) frames
      (sampleTimestamps duration) ([], none) (-1) st
      (sampleTimestamps_chain duration) hinv0 hscan
  have hclosure : ∀ st2, scanSamples hasCallback (totalSamplesOf duration) frames
      (sampleTimestamps duration) ([], none) = .ok st2 →
      ∀ s, st2.2 = some s → L = st2.1 ++ [(s, duration)] := by
    intro st2 hscan2 s hcur2
    rw [hscan] at hscan2
    cases hscan2
    rw [hcur2] at h
    simp only [Pure.pure, Except.pure, Except.ok.injEq] at h
    exact h.symm
  by_cases hts : sampleTimestamps duration = []
  · have hstinit : st = ([], none) := by
      have h2 := hscan
      rw [hts] at h2
      simp only [scanSamples, Except.ok.injEq] at h2
      exact h2.symm
    rw [hstinit] at h
    simp only [Pure.pure, Except.pure, Except.ok.injEq] at h
    subst h
    exact ⟨by simp, by simp, by simp, hclosure⟩
  · have hblt : (sampleTimestamps duration).getLastD (-1) < duration := by
      cases getLastD_eq_or_mem (sampleTimestamps duration) (-1) with
      | inl heq =>
        rw [heq]
        have hne : sampleTimestamps duration ≠ [] := hts
        rw [sampleTimestamps] at hne
        have hn : Int.toNat ⌈duration / 2⌉ ≠ 0 := by
          intro h0
          apply hne
          rw [h0]
          rfl
        have hpos : (0 : ℤ) < ⌈duration / 2⌉ := by omega
        have hdpos : (0 : ℚ) < duration / 2 := by
          by_contra hc
          push_neg at hc
          have hle : ⌈duration / 2⌉ ≤ (0 : ℤ) :=
            Int.ceil_le.mpr (by exact_mod_cast hc)
          omega
        linarith
      | inr hmem => exact sampleTimestamps_lt duration _ hmem
    obtain ⟨hi1, hi2, hi3, hi4⟩ := hinv
    cases hcur : st.2 with
    | none =>
      rw [hcur] at h
      simp only [Pure.pure, Except.pure, Except.ok.injEq] at h
      subst h
      refine ⟨?_, hi2, ?_, hclosure⟩
      · exact fun p hp => ⟨hi1 p hp, le_of_lt (lt_of_le_of_lt (hi3 p hp) hblt)⟩
      · exact List.Pairwise.imp_of_mem
          (fun {p q} hp _ hr => lt_of_lt_of_le (hi1 p hp) hr) hi2
    | some s =>
      rw [hcur] at h
      simp only [Pure.pure, Except.pure, Except.ok.injEq] at h
      subst h
      have hs := hi4 s hcur
      have hfirst : ∀ p ∈ st.1 ++ [(s, duration)], p.1 < p.2 ∧ p.2 ≤ duration := by
        intro p hp
        rcases List.mem_append.mp hp with hm | hm
        · exact ⟨hi1 p hm, le_of_lt (lt_of_le_of_lt (hi3 p hm) hblt)⟩
        · simp at hm
          subst hm
          exact ⟨lt_of_le_of_lt hs.1 hblt, le_refl duration⟩
      have hpw : (st.1 ++ [(s, duration)]).Pairwise (fun p q => p.2 ≤ q.1) := by
        rw [List.pairwise_append]
        refine ⟨hi2, List.pairwise_singleton _ _, ?_⟩
        intro p hp q hq
        simp at hq
        subst hq
        exact hs.2 p hp
      refine ⟨hfirst, hpw, ?_, hclosure⟩
      exact List.Pairwise.imp_of_mem
        (fun {p q} hp _ hr => lt_of_lt_of_le (hfirst p hp).1 hr) hpw

/-- Witness for `detect_intervals_invariants`: a 6-second video whose frames
are green from `t = 4` on, so the run is still open after the last sample and
is closed at the total duration: the result is `[(4, 6)]`. -/
theorem detect_intervals_invariants_witness :
    detectGreenScreenSegments false 6 (fun t => some (decide (4 ≤ t))) =
        .ok [(4, 6)] ∧
    ((∀ p ∈ [((4 : ℚ), (6 : ℚ))], p.1 < p.2 ∧ p.2 ≤ 6) ∧
    List.Pairwise (fun p q => p.2 ≤ q.1) [((4 : ℚ), (6 : ℚ))] ∧
    List.Pairwise (fun p q => p.1 < q.1) [((4 : ℚ), (6 : ℚ))] ∧
    (∀ st, scanSamples false (totalSamplesOf 6) (fun t => some (decide (4 ≤ t)))
        (sampleTimestamps 6) ([], none) = .ok st →
      ∀ s, st.2 = some s → [((4 : ℚ), (6 : ℚ))] = st.1 ++ [(s, 6)])) := by
  have hcomp : detectGreenScreenSegments false 6 (fun t => some (decide (4 ≤ t))) =
      .ok [(4, 6)] := by
    have hts : sampleTimestamps 6 = [0, 2, 4] := by
      norm_num [sampleTimestamps]
      rw [show Int.toNat 3 = 3 from rfl]
      norm_num [List.range_succ]
    simp only [detectGreenScreenSegments, hts, Bind.bind, Except.bind]
    norm_num [scanSamples, scanStep, Pure.pure, Except.pure]
  exact ⟨hcomp,
    detect_intervals_invariants false 6 (fun t => some (decide (4 ≤ t)))
      [(4, 6)] hcomp⟩

/-! ## Frame classification (`_is_green_screen_frame`, lines 496-532)

A frame is a (flattened) array of 8-bit RGB pixels; the code normalizes each
channel by 255.  The hue is computed by three sequential masked assignments
(`h[idx] = …` for `cmax == r`, then `cmax == g`, then `cmax == b`, each under
`delta > 0`), so where several channels tie for the maximum the **last**
matching assignment wins; `hueRGBCode` reproduces that overwrite order, while
`hueRGBSpec` is the standard first-match max/min/delta formulation the spec
describes.  `np.mod x 360` is `qmod x 360 = x - 360·⌊x/360⌋`.  Saturation is
`delta/cmax` when `cmax > 0` else 0, value is `cmax`, and a frame is green
when the green-pixel fraction strictly exceeds the threshold. -/

structure Pixel where
  r : ℕ
  g : ℕ
  b : ℕ
deriving DecidableEq

def qmod (x m : ℚ) : ℚ := x - m * ⌊x / m⌋

def cmax3 (r g b : ℚ) : ℚ := max (max r g) b

def cmin3 (r g b : ℚ) : ℚ := min (min r g) b

def delta3 (r g b : ℚ) : ℚ := cmax3 r g b - cmin3 r g b

def hueRGBCode (r g b : ℚ) : ℚ :=
  let h1 := if cmax3 r g b = r ∧ 0 < delta3 r g b then
    qmod (60 * (g - b) / delta3 r g b + 360) 360 else 0
  let h2 := if cmax3 r g b = g ∧ 0 < delta3 r g b then
    qmod (60 * (b - r) / delta3 r g b + 120) 360 else h1
  let h3 := if cmax3 r g b = b ∧ 0 < delta3 r g b then
    qmod (60 * (r - g) / delta3 r g b + 240) 360 else h2
  h3 / 360

/-- The standard (first-match) HSV hue formulation named by the spec. -/
def hueRGBSpec (r g b : ℚ) : ℚ :=
  (if delta3 r g b = 0 then 0
   else if cmax3 r g b = r then qmod (60 * (g - b) / delta3 r g b + 360) 360
   else if cmax3 r g b = g then qmod (60 * (b - r) / delta3 r g b + 120) 360
   else qmod (60 * (r - g) / delta3 r g b + 240) 360) / 360

theorem cmax3_cases (r g b : ℚ) :
    cmax3 r g b = r ∨ cmax3 r g b = g ∨ cmax3 r g b = b := by
  unfold cmax3
  rcases max_choice (max r g) b with h | h
  · rcases max_choice r g with h' | h'
    · left; rw [h, h']
    · right; left; rw [h, h']
  · right; right; exact h

theorem cmin3_cases (r g b : ℚ) :
    cmin3 r g b = r ∨ cmin3 r g b = g ∨ cmin3 r g b = b := by
  unfold cmin3
  rcases min_choice (min r g) b with h | h
  · rcases min_choice r g with h' | h'
    · left; rw [h, h']
    · right; left; rw [h, h']
  · right; right; exact h

theorem cmin3_le_r (r g b : ℚ) : cmin3 r g b ≤ r :=
  le_trans (min_le_left _ _) (min_le_left _ _)

theorem le_cmax3_r (r g b : ℚ) : r ≤ cmax3 r g b :=
  le_trans (le_max_left _ _) (le_max_left _ _)

theorem delta3_nonneg (r g b : ℚ) : 0 ≤ delta3 r g b := by
  unfold delta3
  have h1 : cmin3 r g b ≤ r := cmin3_le_r r g b
  have h2 : r ≤ cmax3 r g b := le_cmax3_r r g b
  linarith

theorem qmod_420 : qmod 420 360 = 60 := by
  unfold qmod
  norm_num

theorem qmod_60 : qmod 60 360 = 60 := by
  unfold qmod
  norm_num

/-- At ties for the maximum channel the hue formulas agree, so the code's
last-match overwrite order computes the same hue as the spec's standard
first-match formulation. -/
theorem hueRGB_eq (r g b : ℚ) : hueRGBCode r g b = hueRGBSpec r g b := by
  simp only [hueRGBCode, hueRGBSpec]
  by_cases hd : 0 < delta3 r g b
  case neg =>
    have hd0 : delta3 r g b = 0 := le_antisymm (not_lt.mp hd) (delta3_nonneg r g b)
    simp [hd0]
  case pos =>
    have hd0 : delta3 r g b ≠ 0 := ne_of_gt hd
    rw [if_neg hd0]
    by_cases hb : cmax3 r g b = b
    · rw [if_pos ⟨hb, hd⟩]
      by_cases hr : cmax3 r g b = r
      · rw [if_pos hr]
        have hg : cmin3 r g b = g := by
          rcases cmin3_cases r g b with h | h | h
          · exfalso
            apply hd0
            unfold delta3
            linarith
          · exact h
          · exfalso
            apply hd0
            unfold delta3
            linarith
        have hgb : g - b = -(delta3 r g b) := by
          unfold delta3
          linarith
        have hrg : r - g = delta3 r g b := by
          unfold delta3
          linarith
        have e1 : 60 * (g - b) / delta3 r g b + 360 = 300 := by
          rw [hgb]
          have hx : (60 : ℚ) * -(delta3 r g b) / delta3 r g b = -60 := by
            field_simp
          rw [hx]
          norm_num
        have e2 : 60 * (r - g) / delta3 r g b + 240 = 300 := by
          rw [hrg]
          have hx : (60 : ℚ) * delta3 r g b / delta3 r g b = 60 := by
            field_simp
          rw [hx]
          norm_num
        rw [e1, e2]
      · rw [if_neg hr]
        by_cases hgx : cmax3 r g b = g
        · rw [if_pos hgx]
          have hrc : cmin3 r g b = r := by
            rcases cmin3_cases r g b with h | h | h
            · exact h
            · exfalso
              apply hd0
              unfold delta3
              linarith
            · exfalso
              apply hd0
              unfold delta3
              linarith
          have hbr : b - r = delta3 r g b := by
            unfold delta3
            linarith
          have hrg : r - g = -(delta3 r g b) := by
            unfold delta3
            linarith
          have e1 : 60 * (b - r) / delta3 r g b + 120 = 180 := by
            rw [hbr]
            have hx : (60 : ℚ) * delta3 r g b / delta3 r g b = 60 := by
              field_simp
            rw [hx]
            norm_num
          have e2 : 60 * (r - g) / delta3 r g b + 240 = 180 := by
            rw [hrg]
            have hx : (60 : ℚ) * -(delta3 r g b) / delta3 r g b = -60 := by
              field_simp
            rw [hx]
            norm_num
          rw [e1, e2]
        · rw [if_neg hgx]
    · rw [if_neg (show ¬(cmax3 r g b = b ∧ 0 < delta3 r g b) from
        fun hc => hb hc.1)]
      by_cases hgx : cmax3 r g b = g
      · rw [if_pos ⟨hgx, hd⟩]
        by_cases hr : cmax3 r g b = r
        · rw [if_pos hr]
          have hbc : cmin3 r g b = b := by
            rcases cmin3_cases r g b with h | h | h
            · exfalso
              apply hd0
              unfold delta3
              linarith
            · exfalso
              apply hd0
              unfold delta3
              linarith
            · exact h
          have hgb : g - b = delta3 r g b := by
            unfold delta3
            linarith
          have hbr : b - r = -(delta3 r g b) := by
            unfold delta3
            linarith
          have e1 : 60 * (g - b) / delta3 r g b + 360 = 420 := by
            rw [hgb]
            have hx : (60 : ℚ) * delta3 r g b / delta3 r g b = 60 := by
              field_simp
            rw [hx]
            norm_num
          have e2 : 60 * (b - r) / delta3 r g b + 120 = 60 := by
            rw [hbr]
            have hx : (60 : ℚ) * -(delta3 r g b) / delta3 r g b = -60 := by
              field_simp
            rw [hx]
            norm_num
          rw [e1, e2, qmod_420, qmod_60]
        · rw [if_neg hr, if_pos hgx]
      · rw [if_neg (show ¬(cmax3 r g b = g ∧ 0 < delta3 r g b) from
          fun hc => hgx hc.1)]
        by_cases hr : cmax3 r g b = r
        · rw [if_pos ⟨hr, hd⟩, if_pos hr]
        · exfalso
          rcases cmax3_cases r g b with h | h | h
          · exact hr h
          · exact hgx h
          · exact hb h

def nr (p : Pixel) : ℚ := (p.r : ℚ) / 255

def ng (p : Pixel) : ℚ := (p.g : ℚ) / 255

def nb (p : Pixel) : ℚ := (p.b : ℚ) / 255

def hueCode (p : Pixel) : ℚ := hueRGBCode (nr p) (ng p) (nb p)

def hueSpec (p : Pixel) : ℚ := hueRGBSpec (nr p) (ng p) (nb p)

def saturationOf (p : Pixel) : ℚ :=
  if 0 < cmax3 (nr p) (ng p) (nb p) then
    delta3 (nr p) (ng p) (nb p) / cmax3 (nr p) (ng p) (nb p)
  else 0

def valueOf (p : Pixel) : ℚ := cmax3 (nr p) (ng p) (nb p)

def inGreenBand (h s v : ℚ) : Prop :=
  0.222 ≤ h ∧ h ≤ 0.444 ∧ 0.196 ≤ s ∧ s ≤ 1 ∧ 0.196 ≤ v ∧ v ≤ 1

instance (h s v : ℚ) : Decidable (inGreenBand h s v) := by
  unfold inGreenBand
  infer_instance

def isGreenPixel (p : Pixel) : Bool :=
  decide (inGreenBand (hueCode p) (saturationOf p) (valueOf p))

def isGreenPixelSpec (p : Pixel) : Bool :=
  decide (inGreenBand (hueSpec p) (saturationOf p) (valueOf p))

def isGreenScreenFrame (frame : List Pixel) (threshold : ℚ) : Bool :=
  decide ((frame.countP isGreenPixel : ℚ) / (frame.length : ℚ) > threshold)

def greenFractionSpec (frame : List Pixel) : ℚ :=
  (frame.countP isGreenPixelSpec : ℚ) / (frame.length : ℚ)

theorem isGreenPixel_eq (p : Pixel) : isGreenPixel p = isGreenPixelSpec p := by
  unfold isGreenPixel isGreenPixelSpec hueCode hueSpec
  rw [hueRGB_eq]

theorem isGreenPixel_pure_green : isGreenPixel ⟨0, 255, 0⟩ = true := by
  norm_num [isGreenPixel, inGreenBand, hueCode, hueRGBCode, nr, ng, nb,
    cmax3, cmin3, delta3, saturationOf, valueOf, qmod, max_def, min_def]

theorem isGreenPixel_pure_red : isGreenPixel ⟨255, 0, 0⟩ = false := by
  norm_num [isGreenPixel, inGreenBand, hueCode, hueRGBCode, nr, ng, nb,
    cmax3, cmin3, delta3, saturationOf, valueOf, qmod, max_def, min_def]

/-- **C7** — For every non-empty frame and threshold ratio `t ∈ (0, 1]`, the
code's frame classifier — HSV conversion with saturation `delta/max` when
`max > 0` else 0, value `max`, and the pixel band
hue ∈ [0.222, 0.444], saturation ∈ [0.196, 1], value ∈ [0.196, 1] — declares
the frame green exactly when the fraction of green pixels (computed with the
spec's standard hue formulation, equal to the code's by `hueRGB_eq`) is
strictly greater than `t`; in particular a fraction merely equal to `t` is
classified as not green. -/
theorem green_frame_strict_threshold (frame : List Pixel) (threshold : ℚ)
    (ht0 : 0 < threshold) (ht1 : threshold ≤ 1) (hne : frame ≠ []) :
    (isGreenScreenFrame frame threshold = true ↔
      greenFractionSpec frame > threshold) ∧
    (greenFractionSpec frame = threshold →
      isGreenScreenFrame frame threshold = false) := by
  have hiff : isGreenScreenFrame frame threshold = true ↔
      greenFractionSpec frame > threshold := by
    unfold isGreenScreenFrame greenFractionSpec
    rw [List.countP_congr (fun p _ => by rw [isGreenPixel_eq p])]
    exact decide_eq_true_iff
  refine ⟨hiff, fun heq => ?_⟩
  cases hval : isGreenScreenFrame frame threshold
  · rfl
  · have hgt := hiff.mp hval
    rw [heq] at hgt
    exact absurd hgt (lt_irrefl _)

/-- Witness for `green_frame_strict_threshold`: a two-pixel frame (one pure
chroma-key green pixel, one pure red pixel) with threshold 1/2 — the green
fraction is exactly the threshold. -/
theorem green_frame_strict_threshold_witness :
    ((0 : ℚ) < 1/2 ∧ (1/2 : ℚ) ≤ 1 ∧
      ([⟨0, 255, 0⟩, ⟨255, 0, 0⟩] : List Pixel) ≠ []) ∧
    ((isGreenScreenFrame [⟨0, 255, 0⟩, ⟨255, 0, 0⟩] (1/2) = true ↔
        greenFractionSpec [⟨0, 255, 0⟩, ⟨255, 0, 0⟩] > 1/2) ∧
      (greenFractionSpec [⟨0, 255, 0⟩, ⟨255, 0, 0⟩] = 1/2 →
        isGreenScreenFrame [⟨0, 255, 0⟩, ⟨255, 0, 0⟩] (1/2) = false)) :=
  ⟨⟨by norm_num, by norm_num, by decide⟩,
    green_frame_strict_threshold _ _ (by norm_num) (by norm_num) (by decide)⟩

end VideoProcessor
